import Mathlib

/-!
Shallow embedding of the retrieval core of the `orbitbot` repository:
`backend/services/vector_store.py` (class `VectorStore`) and
`backend/services/document_processor.py` (method `DocumentProcessor.chunk_text`).

Vector components are modelled as exact rationals.  The FAISS library
(`IndexFlatL2`) is external to the repository; it is modelled by a list of
stored vectors searched exhaustively by squared Euclidean distance, ties
broken by insertion order, and — as the real library does when `k` exceeds
`ntotal` — result rows padded with label `-1` and the maximal float
distance (`FLT_MAX = 2^128 - 2^104`).
-/

namespace Orbit

/-! ### Python string / list helpers -/

/-- Python whitespace characters recognised by `str.strip` / `str.split`
(space, tab, newline, carriage return, vertical tab, form feed). -/
def pyIsSpace (c : Char) : Bool :=
  [' ', '\t', '\n', '\r', Char.ofNat 11, Char.ofNat 12].contains c

/-- Python `str.strip()`: drop leading and trailing whitespace. -/
def pyStrip (l : List Char) : List Char :=
  ((l.dropWhile pyIsSpace).reverse.dropWhile pyIsSpace).reverse

/-- Python slice `l[s:e]` for non-negative bounds (clamped at the ends). -/
def pySlice (l : List α) (s e : Nat) : List α := (l.take e).drop s

/-- Python item access `l[i]`, including negative-index wrap-around;
`none` models an `IndexError`. -/
def pyGet (l : List α) (i : Int) : Option α :=
  if 0 ≤ i then l[i.toNat]?
  else if 0 ≤ i + l.length then l[(i + l.length).toNat]? else none

/-- Helper for `wordCount`: the flag records whether the previous character
was part of a word. -/
def wordCountAux : Bool → List Char → Nat
  | _, [] => 0
  | inWord, c :: rest =>
    if pyIsSpace c then wordCountAux false rest
    else (if inWord then 0 else 1) + wordCountAux true rest

/-- Python `len(text.split())`: number of maximal whitespace-free runs.
(`chunk_text`'s token-count fallback when no tokenizer is available;
the tiktoken tokenizer is an external library and is modelled as absent.) -/
def wordCount (l : List Char) : Nat := wordCountAux false l

/-! ### Chunker (`DocumentProcessor.chunk_text`) -/

/-- A chunk record produced by `chunk_text`
(`{"text", "chunk_id", "start_pos", "end_pos", "token_count"}`). -/
structure TextChunk where
  text : List Char
  chunk_id : Nat
  start_pos : Nat
  end_pos : Nat
  token_count : Nat
deriving DecidableEq, Repr

/-- The lookback window `min(100, self.chunk_size // 10)`. -/
def lookback (size : Nat) : Nat := min 100 (size / 10)

/-- The scan `for i in range(...): if text[end - i] == ' ': ...` — returns
the first offset `i` in the candidate list with a space at `text[e - i]`.
(All probed positions satisfy `e - i < text.length` at every call site, so
the `getD` default is never consulted.) -/
def firstSpace (text : List Char) (e : Nat) : List Nat → Option Nat
  | [] => none
  | i :: rest => if text.getD (e - i) 'x' = ' ' then some i else firstSpace text e rest

/-- The chunk-boundary computation of `chunk_text`: propose `start + size`;
if that falls strictly inside the text, snap back to the nearest space
found within the lookback window. -/
def snapEnd (text : List Char) (size start : Nat) : Nat :=
  if start + size < text.length then
    match firstSpace text (start + size) (List.range (lookback size)) with
    | some i => start + size - i
    | none => start + size
  else start + size

/-- One iteration of the `while` loop of `chunk_text`: returns the chosen
end offset, the stripped slice, and the next start offset `end - overlap`.
(Offsets are naturals; at every use in this development `overlap ≤ end`,
so the truncated subtraction agrees with Python.) -/
def chunkStep (text : List Char) (size overlap start : Nat) : Nat × List Char × Nat :=
  let e := snapEnd text size start
  (e, pyStrip (pySlice text start e), e - overlap)

/-- The `while start < len(text)` loop of `chunk_text`, with explicit fuel
(the Python loop need not terminate; see the C7 analysis). `cid` is the
running `chunk_id`, incremented only when a chunk is emitted. -/
def chunkTextAux (text : List Char) (size overlap : Nat) : Nat → Nat → Nat → List TextChunk
  | 0, _, _ => []
  | fuel+1, start, cid =>
    if start < text.length then
      let s := chunkStep text size overlap start
      if s.2.1.isEmpty then chunkTextAux text size overlap fuel s.2.2 cid
      else ⟨s.2.1, cid, start, s.1, wordCount s.2.1⟩ ::
        chunkTextAux text size overlap fuel s.2.2 (cid + 1)
    else []

/-- `DocumentProcessor.chunk_text` (fuel-indexed). -/
def chunk_text (text : List Char) (size overlap fuel : Nat) : List TextChunk :=
  if (pyStrip text).isEmpty then [] else chunkTextAux text size overlap fuel 0 0

/-- The window scan as the specification words it (any *whitespace*
character is a snap target).  This is the specification's variant of
`firstSpace`, kept for comparison with the code, which tests only the
space character `' '`. -/
def firstWhitespaceOff (text : List Char) (e : Nat) : List Nat → Option Nat
  | [] => none
  | i :: rest =>
    if pyIsSpace (text.getD (e - i) 'x') then some i else firstWhitespaceOff text e rest

/-- The chunk-boundary rule as the specification words it: scan the same
lookback window for a *whitespace* character and snap to the last such
position.  Compare with `snapEnd`, which is what the code does. -/
def snapEndWhitespace (text : List Char) (size start : Nat) : Nat :=
  if start + size < text.length then
    match firstWhitespaceOff text (start + size) (List.range (lookback size)) with
    | some i => start + size - i
    | none => start + size
  else start + size

/-! ### Vector store data model (`VectorStore`) -/

/-- The metadata dictionary stored per chunk: `file_name` models the nested
lookup `metadata.get("metadata", {}).get("file_name")` used by
`delete_by_filename` (`none` when absent), and `payload` stands for the
rest of the dictionary, distinguishing entries. -/
structure ChunkMeta where
  file_name : Option String
  payload : Nat
deriving DecidableEq, Repr

/-- An input chunk passed to `add_documents`: an optional `"embedding"`
key plus the remaining metadata. -/
structure DocChunk where
  embedding : Option (List ℚ)
  meta : ChunkMeta
deriving DecidableEq, Repr

/-- Model of `faiss.IndexFlatL2`: the configured dimension and the stored
vectors in insertion order (`ntotal = vectors.length`). -/
structure FaissIndex where
  dim : Nat
  vectors : List (List ℚ)
deriving DecidableEq, Repr

/-- The three persisted files (`faiss_index.bin`, `metadata.pkl`,
`config.json`); `none` means the file does not exist. -/
structure Disk where
  index_file : Option FaissIndex
  metadata_file : Option (List ChunkMeta)
  config_file : Option Nat
deriving DecidableEq, Repr

def emptyDisk : Disk := ⟨none, none, none⟩

/-- In-memory state of a `VectorStore` together with its on-disk files. -/
structure VectorStore where
  index : Option FaissIndex
  metadata : List ChunkMeta
  dimension : Option Nat
  disk : Disk
deriving DecidableEq, Repr

/-! ### FAISS search model -/

/-- Squared Euclidean distance (the metric of `IndexFlatL2`). -/
def sqDist (q v : List ℚ) : ℚ :=
  ((q.zip v).map (fun p => (p.1 - p.2) * (p.1 - p.2))).sum

/-- `FLT_MAX = 2^128 - 2^104` (see `fltMax_eq`), the distance FAISS
reports for padding rows when `k` exceeds the number of stored vectors. -/
def fltMax : ℚ := 340282346638528859811704183484516925440

/-- Result-row order of an exact L2 search: ascending distance, ties by
insertion position. -/
def distLE (a b : ℚ × Nat) : Prop := a.1 < b.1 ∨ (a.1 = b.1 ∧ a.2 ≤ b.2)

instance : DecidableRel distLE := fun a b => by unfold distLE; exact inferInstance

/-- Pad the found rows to `k` rows with `(FLT_MAX, -1)`, as FAISS fills
unsatisfiable result slots. -/
def faissPad (k : Nat) (top : List (ℚ × Int)) : List (ℚ × Int) :=
  top ++ List.replicate (k - top.length) (fltMax, -1)

/-- `index.search(q, k)` on `IndexFlatL2`: the `min(k, ntotal)` nearest
stored vectors as `(distance, label)` rows, padded to `k` rows with
`(FLT_MAX, -1)`. -/
def faissSearch (ix : FaissIndex) (q : List ℚ) (k : Nat) : List (ℚ × Int) :=
  faissPad k
    (((List.insertionSort distLE
        (ix.vectors.enum.map (fun p => (sqDist q p.2, p.1)))).take k).map
      (fun p => (p.1, (p.2 : Int))))

/-- A result row of `VectorStore.search`: the copied metadata entry plus
the added `"similarity_score"` and `"rank"` keys. -/
structure SearchResult where
  meta : ChunkMeta
  similarity_score : ℚ
  rank : Nat
deriving DecidableEq, Repr

/-- The result-assembly loop of `VectorStore.search`:
`for i, (distance, idx) in enumerate(...)`, keeping rows with
`idx < len(self.metadata)` (note `-1` passes this guard and Python's
negative indexing then yields the *last* metadata entry); `none` models an
`IndexError` escaping the loop. -/
def buildResults (meta : List ChunkMeta) : List (ℚ × Int) → Nat → Option (List SearchResult)
  | [], _ => some []
  | (d, idx) :: rest, i =>
    if idx < (meta.length : Int) then
      match pyGet meta idx with
      | none => none
      | some m => (buildResults meta rest (i + 1)).map (fun rs => ⟨m, 1 / (1 + d), i + 1⟩ :: rs)
    else buildResults meta rest (i + 1)

/-- `VectorStore.search`.  An empty / absent index returns `[]`; a query of
the wrong width makes FAISS raise, which the `except` turns into `[]`, as
does an `IndexError` during assembly. -/
def search (s : VectorStore) (q : List ℚ) (k : Nat) : List SearchResult :=
  match s.index with
  | none => []
  | some ix =>
    if ix.vectors.length = 0 then []
    else if q.length ≠ ix.dim then []
    else
      match buildResults s.metadata (faissSearch ix q k) 0 with
      | some rs => rs
      | none => []

/-! ### Vector store operations -/

/-- `VectorStore._create_new_index`: fresh empty index, metadata reset,
dimension recorded, configuration file written. -/
def createNewIndex (s : VectorStore) (d : Nat) : VectorStore :=
  { s with index := some ⟨d, []⟩, metadata := [], dimension := some d,
           disk := { s.disk with config_file := some d } }

/-- `VectorStore._save_index`: write the index and metadata files.  (Called
only with an existing index; with `index = None`, `faiss.write_index`
would raise before touching the disk, hence the identity branch.) -/
def save_index (s : VectorStore) : VectorStore :=
  match s.index with
  | some _ =>
    { s with disk := { s.disk with index_file := s.index, metadata_file := some s.metadata } }
  | none => s

/-- The validation loop of `add_documents`: collect embeddings and
embedding-free metadata, raising `ValueError("Chunk missing embedding")`
at the first chunk without an `"embedding"` key. -/
def extractChunks : List DocChunk → Except String (List (List ℚ) × List ChunkMeta)
  | [] => .ok ([], [])
  | c :: rest =>
    match c.embedding with
    | none => .error "Chunk missing embedding"
    | some e => (extractChunks rest).map (fun p => (e :: p.1, c.meta :: p.2))

/-- `np.array(embeddings)`: the common row width (`shape[1]`), or `none`
when the rows are ragged and `np.array` raises. -/
def uniformDim : List (List ℚ) → Option Nat
  | [] => none
  | e :: es => if es.all (fun x => x.length == e.length) then some e.length else none

/-- `VectorStore.add_documents`.  The second component is the error message
of a raised exception (`none` = success); on error the first component is
the store exactly as it was, matching the source, where every raise
happens before any mutation. -/
def add_documents (s : VectorStore) (chunks : List DocChunk) : VectorStore × Option String :=
  if chunks.isEmpty then (s, none)
  else
    match extractChunks chunks with
    | .error msg => (s, some msg)
    | .ok (embs, metas) =>
      match uniformDim embs with
      | none => (s, some "setting an array element with a sequence")
      | some d =>
        match s.index with
        | none =>
          let s1 := createNewIndex s d
          let s2 := { s1 with index := some ⟨d, embs⟩, metadata := metas }
          (save_index s2, none)
        | some ix =>
          if d = ix.dim then
            let s2 := { s with index := some ⟨ix.dim, ix.vectors ++ embs⟩,
                               metadata := s.metadata ++ metas }
            (save_index s2, none)
          else (s, some "dimension mismatch")

/-- The dictionary returned by `VectorStore.get_stats`. -/
structure Stats where
  total_vectors : Nat
  dimension : Option Nat
  index_file_exists : Bool
  metadata_count : Nat
  storage_path : String
deriving DecidableEq, Repr

/-- `VectorStore.get_stats`. -/
def get_stats (s : VectorStore) : Stats :=
  ⟨(s.index.map (fun ix => ix.vectors.length)).getD 0, s.dimension,
    s.disk.index_file.isSome, s.metadata.length, "./data/vector_store"⟩

/-- `VectorStore.clear`: delete all three files, reset the in-memory state. -/
def clear (_ : VectorStore) : VectorStore :=
  { index := none, metadata := [], dimension := none, disk := emptyDisk }

/-- `VectorStore.delete_by_filename`: collect the positions whose nested
`file_name` equals `filename`; if any match, drop exactly those metadata
entries, then persist (or `clear` when nothing survives).  The FAISS index
itself is never rebuilt — the vectors stay. -/
def delete_by_filename (s : VectorStore) (filename : String) : VectorStore × Nat :=
  let indicesToRemove :=
    (s.metadata.enum.filter (fun p => p.2.file_name == some filename)).map Prod.fst
  if indicesToRemove.isEmpty then (s, 0)
  else
    match s.index with
    | some ix =>
      if 0 < ix.vectors.length then
        let newMeta :=
          (s.metadata.enum.filter (fun p => !(indicesToRemove.contains p.1))).map Prod.snd
        let s1 := { s with metadata := newMeta }
        if !newMeta.isEmpty then (save_index s1, indicesToRemove.length)
        else (clear s1, indicesToRemove.length)
      else (s, 0)
    | none => (s, 0)

/-- `VectorStore.__init__` / `_load_or_create_index` / `_load_index`:
load the persisted files when the index and metadata files both exist
(the configuration file, when present, overrides the dimension argument);
otherwise create a fresh index when a (truthy) dimension was supplied. -/
def newVectorStore (disk : Disk) (dimParam : Option Nat) : VectorStore :=
  match disk.index_file, disk.metadata_file with
  | some i, some m =>
    { index := some i, metadata := m,
      dimension := match disk.config_file with | some d => some d | none => dimParam,
      disk := disk }
  | _, _ =>
    match dimParam with
    | some d =>
      if d ≠ 0 then
        createNewIndex { index := none, metadata := [], dimension := dimParam, disk := disk } d
      else { index := none, metadata := [], dimension := dimParam, disk := disk }
    | none => { index := none, metadata := [], dimension := none, disk := disk }

/-- The store states reachable from a freshly constructed store (no
persisted files, no dimension argument) by successful `add_documents`
calls. -/
inductive Reachable : VectorStore → Prop
  | base : Reachable (newVectorStore emptyDisk none)
  | add (s : VectorStore) (chunks : List DocChunk) (h : Reachable s)
      (hok : (add_documents s chunks).2 = none) : Reachable (add_documents s chunks).1

/-! ### Concrete states used by the claim analyses -/

def metaA : ChunkMeta := ⟨some "a", 0⟩

def metaB : ChunkMeta := ⟨some "b", 1⟩

def metaC : ChunkMeta := ⟨some "c", 2⟩

/-- A freshly constructed store: no persisted files, no dimension argument. -/
def freshStore : VectorStore := newVectorStore emptyDisk none

/-- One chunk for document `"a"` and one for document `"b"` (dimension 1). -/
def twoFileBatch : List DocChunk := [⟨some [0], metaA⟩, ⟨some [1], metaB⟩]

def storeAB : VectorStore := (add_documents freshStore twoFileBatch).1

def afterDeleteA : VectorStore × Nat := delete_by_filename storeAB "a"

/-- A store holding a single vector `[0]` (with its files persisted). -/
def oneVecStore : VectorStore :=
  ⟨some ⟨1, [[0]]⟩, [metaA], some 1, ⟨some ⟨1, [[0]]⟩, some [metaA], some 1⟩⟩

/-- A store holding vectors `[0]` and `[3]` with metadata `metaA`, `metaB`. -/
def twoVecStore : VectorStore := ⟨some ⟨1, [[0], [3]]⟩, [metaA, metaB], some 1, emptyDisk⟩

/-- Twenty `'a'`s: no space anywhere, so no boundary snapping occurs. -/
def stuckText : List Char := List.replicate 20 'a'

/-- A store that already holds the vector `[5]` (entry `metaA`). -/
def dupStore : VectorStore := ⟨some ⟨1, [[5]]⟩, [metaA], some 1, emptyDisk⟩

/-- A chunk whose embedding `[5]` duplicates a vector already stored. -/
def dupChunk : DocChunk := ⟨some [5], metaB⟩

/-- 35 characters: 29 `'a'`s, a newline at position 29, then 5 more
`'a'`s — the lookback window of a raw boundary at 30 contains a newline
but no space. -/
def nlText : List Char := List.replicate 29 'a' ++ '\n' :: List.replicate 5 'a'

/-! ### Basic facts -/

theorem fltMax_eq : fltMax = 2 ^ 128 - 2 ^ 104 := by norm_num [fltMax]

/-! ### Validation-loop lemmas (C10, C6) -/

theorem extractChunks_error :
    ∀ l : List DocChunk, (∃ c ∈ l, c.embedding = none) →
      extractChunks l = .error "Chunk missing embedding"
  | [], h => by simp at h
  | c :: rest, h => by
    match hc : c.embedding with
    | none => simp [extractChunks, hc]
    | some e =>
      have hrest : ∃ x ∈ rest, x.embedding = none := by
        rcases h with ⟨x, hx, hxe⟩
        rcases List.mem_cons.mp hx with rfl | hx'
        · rw [hc] at hxe; cases hxe
        · exact ⟨x, hx', hxe⟩
      simp [extractChunks, hc, extractChunks_error rest hrest, Except.map]

/-- C10.  For every store state and every non-empty batch in which some
chunk lacks an embedding, `add_documents` raises
`ValueError("Chunk missing embedding")` and leaves the in-memory index,
metadata and dimension (and the files) exactly as they were: all
per-chunk validation happens before any mutation. -/
theorem c10_add_missing_embedding_frame (s : VectorStore) (chunks : List DocChunk)
    (hne : chunks ≠ []) (h : ∃ c ∈ chunks, c.embedding = none) :
    add_documents s chunks = (s, some "Chunk missing embedding") := by
  have hne' : chunks.isEmpty = false := by
    cases chunks with
    | nil => cases hne rfl
    | cons a l => rfl
  simp [add_documents, hne', extractChunks_error chunks h]

theorem c10_add_missing_embedding_frame_witness :
    ([(⟨none, metaA⟩ : DocChunk)] ≠ ([] : List DocChunk)
      ∧ ∃ c ∈ [(⟨none, metaA⟩ : DocChunk)], c.embedding = none)
    ∧ add_documents oneVecStore [⟨none, metaA⟩] = (oneVecStore, some "Chunk missing embedding") :=
  ⟨⟨by decide, by decide⟩,
    c10_add_missing_embedding_frame oneVecStore [⟨none, metaA⟩] (by decide) (by decide)⟩

/-- C6.  Deleting a document name that matches no metadata entry returns 0
and leaves the whole store state — vectors, metadata, dimension and the
persisted files — unchanged. -/
theorem c6_delete_no_match_frame (s : VectorStore) (name : String)
    (h : ∀ m ∈ s.metadata, m.file_name ≠ some name) :
    delete_by_filename s name = (s, 0) := by
  have hfil : s.metadata.enum.filter (fun p => p.2.file_name == some name) = [] := by
    rw [List.filter_eq_nil_iff]
    intro p hp
    have hmem : p.2 ∈ s.metadata := by
      have h1 : s.metadata.enum.map Prod.snd = s.metadata := List.enumFrom_map_snd 0 s.metadata
      rw [← h1]
      exact List.mem_map_of_mem Prod.snd hp
    simpa using h p.2 hmem
  simp [delete_by_filename, hfil]

theorem c6_delete_no_match_frame_witness :
    (∀ m ∈ oneVecStore.metadata, m.file_name ≠ some "zz")
    ∧ delete_by_filename oneVecStore "zz" = (oneVecStore, 0) :=
  ⟨by decide, c6_delete_no_match_frame oneVecStore "zz" (by decide)⟩

/-! ### C1 / C2: `delete_by_filename` never removes vectors -/

/-- C1.  Refutation on a concrete run: starting from the empty store, one
`add_documents` call stores two chunks (documents `"a"` and `"b"`), and
`delete_by_filename "a"` then leaves `get_stats` with 2 vectors but only
1 metadata entry — the claimed invariant
`metadata_count == total_vectors` is broken by the deletion path, which
drops metadata entries without removing the corresponding vectors (and so
positional alignment is lost as well: `metaB` now sits at ordinal 0 while
its vector sits at position 1). -/
theorem c1_delete_breaks_count_invariant :
    (get_stats afterDeleteA.1).total_vectors = 2
    ∧ (get_stats afterDeleteA.1).metadata_count = 1
    ∧ afterDeleteA.2 = 1 := by decide

/-- C2.  Refutation on the same concrete run: after
`delete_by_filename "a"` removes the document-"a" entry, the FAISS index
still holds both original vectors `[[0], [1]]` instead of being rebuilt
from the surviving vectors only (`[[1]]`): the source keeps no copy of the
raw vectors and never touches the index on deletion.  The returned count
(1) and the surviving metadata (`[metaB]`) match the claim; the rebuild
does not. -/
theorem c2_delete_does_not_rebuild_index :
    afterDeleteA.2 = 1
    ∧ afterDeleteA.1.metadata = [metaB]
    ∧ afterDeleteA.1.index = some ⟨1, [[0], [1]]⟩
    ∧ afterDeleteA.1.index ≠ some ⟨1, [[1]]⟩ := by decide

/-! ### C3 / C4: searching with `k > ntotal` -/

set_option maxRecDepth 8000 in
unseal Rat.add Rat.mul Rat.inv Rat.sub in
/-- C3.  Refutation on a concrete state: a store with a single vector,
searched with `k = 2`, returns 2 results — more than `total_vectors` = 1.
FAISS pads the result rows with label `-1`; the guard
`idx < len(self.metadata)` does not exclude `-1`, and Python's negative
indexing turns it into the last metadata entry, so the stored entry is
returned twice rather than once. -/
theorem c3_search_exceeds_total_vectors :
    (search oneVecStore [0] 2).length = 2
    ∧ (get_stats oneVecStore).total_vectors = 1
    ∧ (search oneVecStore [0] 2).get? 1 = some ⟨metaA, 1 / (1 + fltMax), 2⟩ := by decide

set_option maxRecDepth 8000 in
unseal Rat.add Rat.mul Rat.inv Rat.sub in
/-- C4.  Refutation on a concrete state: with vectors `[0]`, `[3]` and
`k = 3`, the third returned result carries `metaB` (the last entry, via
the `-1` label) but its score is `1 / (1 + FLT_MAX)` — not
`1 / (1 + d)` for the squared distance `d = 9` between the query and the
vector stored at `metaB`'s ordinal position, which is what rank 2 of the
same result list correctly reports.  So not every result's score is the
distance-based similarity of its own entry, and an entry can appear
twice. -/
theorem c4_padded_result_score_mismatch :
    (search twoVecStore [0] 3).get? 2 = some ⟨metaB, 1 / (1 + fltMax), 3⟩
    ∧ (search twoVecStore [0] 3).get? 1 = some ⟨metaB, 1 / (1 + sqDist [0] [3]), 2⟩
    ∧ (1 : ℚ) / (1 + fltMax) ≠ 1 / (1 + sqDist [0] [3]) := by decide

/-! ### C7: the chunking loop need not advance -/

/-- C7.  Refutation of loop progress: with `chunk_size = 10` and
`chunk_overlap = 10` (overlap = size, which the code neither rejects nor
clamps), one iteration of the `while` loop starting at offset 0 emits a
chunk and computes the next start `end - overlap = 0` again, while the
loop condition `start < len(text)` still holds — the loop never
terminates. -/
theorem c7_chunk_loop_nonadvancing :
    (chunkStep stuckText 10 10 0).2.2 = 0
    ∧ (chunkStep stuckText 10 10 0).2.1.isEmpty = false
    ∧ 0 < stuckText.length := by decide

/-! ### Order facts about `distLE` -/

theorem distLE_refl (a : ℚ × Nat) : distLE a a := Or.inr ⟨rfl, le_refl _⟩

instance : IsTotal (ℚ × Nat) distLE :=
  ⟨fun a b => by
    unfold distLE
    rcases lt_trichotomy a.1 b.1 with h | h | h
    · exact Or.inl (Or.inl h)
    · rcases Nat.le_total a.2 b.2 with h2 | h2
      · exact Or.inl (Or.inr ⟨h, h2⟩)
      · exact Or.inr (Or.inr ⟨h.symm, h2⟩)
    · exact Or.inr (Or.inl h)⟩

instance : IsTrans (ℚ × Nat) distLE :=
  ⟨fun a b c hab hbc => by
    unfold distLE at hab hbc ⊢
    rcases hab with h1 | ⟨h1, h1'⟩
    · rcases hbc with h2 | ⟨h2, _⟩
      · exact Or.inl (h1.trans h2)
      · exact Or.inl (h2 ▸ h1)
    · rcases hbc with h2 | ⟨h2, h2'⟩
      · exact Or.inl (h1 ▸ h2)
      · exact Or.inr ⟨h1.trans h2, h1'.trans h2'⟩⟩

/-! ### Distance facts -/

theorem sqDist_cons (a b : ℚ) (q v : List ℚ) :
    sqDist (a :: q) (b :: v) = (a - b) * (a - b) + sqDist q v := by
  simp [sqDist]

theorem sqDist_self : ∀ q : List ℚ, sqDist q q = 0
  | [] => rfl
  | a :: q => by rw [sqDist_cons, sqDist_self q]; ring

theorem sqDist_nonneg : ∀ q v : List ℚ, 0 ≤ sqDist q v
  | [], _ => le_refl 0
  | _ :: _, [] => le_refl 0
  | a :: q, b :: v => by
    rw [sqDist_cons]
    exact add_nonneg (mul_self_nonneg _) (sqDist_nonneg q v)

theorem sqDist_eq_zero : ∀ q v : List ℚ, q.length = v.length → sqDist q v = 0 → q = v
  | [], [], _, _ => rfl
  | a :: q, b :: v, hlen, h => by
    rw [sqDist_cons] at h
    have h2 := (add_eq_zero_iff_of_nonneg (mul_self_nonneg (a - b)) (sqDist_nonneg q v)).mp h
    have hab : a = b := by
      have := mul_self_eq_zero.mp h2.1
      linarith
    have hqv := sqDist_eq_zero q v (by simpa using hlen) h2.2
    rw [hab, hqv]

/-! ### FAISS search model lemmas -/

/-- When position `p` holds exactly the query vector, no earlier position
does, and all stored vectors have the query's width, the first result row
of the FAISS search is `(distance 0, label p)`. -/
theorem faissSearch_head (ix : FaissIndex) (q : List ℚ) (k p : Nat)
    (hp : ix.vectors[p]? = some q)
    (hbef : ∀ j v, j < p → ix.vectors[j]? = some v → v ≠ q)
    (hlen : ∀ v ∈ ix.vectors, v.length = q.length)
    (hk : 1 ≤ k) :
    ∃ rest, faissSearch ix q k = ((0 : ℚ), (p : Int)) :: rest := by
  unfold faissSearch
  set pairs := ix.vectors.enum.map (fun pr => (sqDist q pr.2, pr.1)) with hpairs
  have hperm : List.Perm (List.insertionSort distLE pairs) pairs :=
    List.perm_insertionSort distLE pairs
  have hsorted : List.Sorted distLE (List.insertionSort distLE pairs) :=
    List.sorted_insertionSort distLE pairs
  have hmem0 : ((0 : ℚ), p) ∈ pairs := by
    rw [hpairs]
    apply List.mem_map.mpr
    refine ⟨(p, q), ?_, by simp [sqDist_self]⟩
    exact List.mem_enum_iff_getElem?.mpr hp
  have hmemS : ((0 : ℚ), p) ∈ List.insertionSort distLE pairs := hperm.mem_iff.mpr hmem0
  obtain ⟨a, t, hcons⟩ : ∃ a t, List.insertionSort distLE pairs = a :: t := by
    cases hse : List.insertionSort distLE pairs with
    | nil => rw [hse] at hmemS; cases hmemS
    | cons a t => exact ⟨a, t, rfl⟩
  have ha_pairs : a ∈ pairs := hperm.subset (hcons ▸ List.mem_cons_self a t)
  rw [hpairs] at ha_pairs
  obtain ⟨pr, hpr, hfa⟩ := List.mem_map.mp ha_pairs
  have hprv : ix.vectors[pr.1]? = some pr.2 := List.mem_enum_iff_getElem?.mp hpr
  have hrel : distLE a ((0 : ℚ), p) := by
    rw [hcons] at hmemS
    rcases List.mem_cons.mp hmemS with heq | hmem_t
    · rw [← heq]; exact distLE_refl _
    · rw [hcons] at hsorted
      exact (List.sorted_cons.mp hsorted).1 _ hmem_t
  have hd_nonneg : 0 ≤ sqDist q pr.2 := sqDist_nonneg q pr.2
  have ha_eq : a = ((0 : ℚ), p) := by
    rw [← hfa] at hrel ⊢
    unfold distLE at hrel
    rcases hrel with hlt | ⟨heq, hle⟩
    · exact absurd hlt (not_lt.mpr hd_nonneg)
    · have hveq : pr.2 = q := by
        have hl : q.length = pr.2.length :=
          (hlen pr.2 (List.mem_iff_getElem?.mpr ⟨pr.1, hprv⟩)).symm
        exact (sqDist_eq_zero q pr.2 hl heq).symm
      have hjp : pr.1 = p := by
        rcases Nat.lt_or_ge pr.1 p with h | h
        · exact absurd hveq (hbef pr.1 pr.2 h hprv)
        · exact le_antisymm hle h
      simp only at heq hjp ⊢
      rw [heq, hjp]
  obtain ⟨k', rfl⟩ : ∃ k', k = k' + 1 := ⟨k - 1, (Nat.succ_pred_eq_of_pos hk).symm⟩
  rw [hcons, ha_eq]
  unfold faissPad
  simp only [List.take_succ_cons, List.map_cons, List.cons_append]
  exact ⟨_, rfl⟩

/-- Every label FAISS returns is a stored position (cast to `Int`) or the
padding label `-1`. -/
theorem faissSearch_label_ge (ix : FaissIndex) (q : List ℚ) (k : Nat) :
    ∀ x ∈ faissSearch ix q k, -1 ≤ x.2 := by
  intro x hx
  unfold faissSearch faissPad at hx
  rcases List.mem_append.mp hx with h | h
  · obtain ⟨pr, _, rfl⟩ := List.mem_map.mp h
    exact le_trans (by norm_num) (Int.natCast_nonneg pr.2)
  · have hx1 : x = (fltMax, -1) := List.eq_of_mem_replicate h
    simp [hx1]

/-- The assembly loop raises no `IndexError` when the metadata list is
non-empty and every label is at least `-1`. -/
theorem buildResults_isSome (meta : List ChunkMeta) (hm : meta ≠ []) :
    ∀ (raw : List (ℚ × Int)) (n : Nat), (∀ x ∈ raw, -1 ≤ x.2) →
      ∃ rs, buildResults meta raw n = some rs
  | [], _, _ => ⟨[], rfl⟩
  | (d, idx) :: rest, n, h => by
    obtain ⟨rs, hrs⟩ :=
      buildResults_isSome meta hm rest (n + 1) (fun x hx => h x (List.mem_cons_of_mem _ hx))
    by_cases hidx : idx < (meta.length : Int)
    · have hidx_ge : -1 ≤ idx := h (d, idx) (List.mem_cons_self _ _)
      have hlenpos : 0 < meta.length := List.length_pos.mpr hm
      have hget : ∃ m, pyGet meta idx = some m := by
        unfold pyGet
        rcases Int.lt_or_le idx 0 with hneg | hpos
        · have hm1 : idx = -1 := by omega

          rw [if_neg (by omega), if_pos (by omega)]
          have htn : (idx + (meta.length : Int)).toNat < meta.length := by omega
          exact ⟨_, List.getElem?_eq_getElem htn⟩
        · rw [if_pos hpos]
          have htn : idx.toNat < meta.length := by omega
          exact ⟨_, List.getElem?_eq_getElem htn⟩
      obtain ⟨m, hmget⟩ := hget
      refine ⟨⟨m, 1 / (1 + d), n + 1⟩ :: rs, ?_⟩
      simp [buildResults, hidx, hmget, hrs]
    · refine ⟨rs, ?_⟩
      simp [buildResults, hidx, hrs]

/-- `search` on a state whose vector at position `p` is exactly the query
(and no earlier vector is) returns the metadata entry stored at position
`p` first, with similarity 1 and rank 1. -/
theorem search_rank1 (s : VectorStore) (ix : FaissIndex) (q : List ℚ) (k p : Nat)
    (hix : s.index = some ix)
    (hp : ix.vectors[p]? = some q)
    (hbef : ∀ j v, j < p → ix.vectors[j]? = some v → v ≠ q)
    (hlen : ∀ v ∈ ix.vectors, v.length = q.length)
    (hqd : q.length = ix.dim)
    (hm : s.metadata.length = ix.vectors.length)
    (hk : 1 ≤ k) :
    ∃ m rest, s.metadata[p]? = some m ∧ search s q k = ⟨m, 1, 1⟩ :: rest := by
  have hpv : p < ix.vectors.length := by
    rcases List.getElem?_eq_some.mp hp with ⟨h, _⟩
    exact h
  have hpm : p < s.metadata.length := by omega
  obtain ⟨raw, hraw⟩ := faissSearch_head ix q k p hp hbef hlen hk
  have hmne : s.metadata ≠ [] := by
    intro h0
    rw [h0] at hpm
    simp at hpm
  have hlab : ∀ x ∈ raw, -1 ≤ x.2 := fun x hx =>
    faissSearch_label_ge ix q k x (by rw [hraw]; exact List.mem_cons_of_mem _ hx)
  obtain ⟨rs, hrs⟩ := buildResults_isSome s.metadata hmne raw 1 hlab
  have hguard : ((p : Int) < (s.metadata.length : Int)) := by exact_mod_cast hpm
  have hpg : pyGet s.metadata (p : Int) = some s.metadata[p] := by
    unfold pyGet
    rw [if_pos (Int.natCast_nonneg p)]
    simp only [Int.toNat_natCast]
    exact List.getElem?_eq_getElem hpm
  refine ⟨s.metadata[p], rs, List.getElem?_eq_getElem hpm, ?_⟩
  have hone : (1 : ℚ) / (1 + 0) = 1 := by norm_num
  have hnz : ¬ ix.vectors.length = 0 := by omega
  simp only [search, hix, if_neg hnz, hqd, ne_eq, not_true_eq_false, if_false, hraw,
    buildResults, if_pos hguard, hpg, hrs, Option.map_some, hone]
  rfl

/-! ### `add_documents` characterization on valid batches -/

theorem extractChunks_all_some :
    ∀ l : List DocChunk, (∀ ch ∈ l, ch.embedding ≠ none) →
      extractChunks l = .ok (l.map (fun ch => ch.embedding.getD []), l.map DocChunk.meta)
  | [], _ => rfl
  | c :: rest, h => by
    match hc : c.embedding with
    | none => exact absurd hc (h c (List.mem_cons_self c rest))
    | some e =>
      have ih := extractChunks_all_some rest (fun ch hch => h ch (List.mem_cons_of_mem c hch))
      simp [extractChunks, hc, ih, Except.map]

theorem uniformDim_of_all (d : Nat) :
    ∀ embs : List (List ℚ), embs ≠ [] → (∀ e ∈ embs, e.length = d) →
      uniformDim embs = some d
  | [], h, _ => absurd rfl h
  | e :: es, _, h => by
    have he : e.length = d := h e (List.mem_cons_self e es)
    have hcond : (es.all fun x => x.length == e.length) = true := by
      rw [List.all_eq_true]
      intro x hx
      have hx' : x.length = d := h x (List.mem_cons_of_mem e hx)
      simp [hx', he]
    simp only [uniformDim]
    rw [hcond]
    simp [he]

/-- Successful `add_documents` on a store with an existing index appends
the batch's vectors and metadata and persists. -/
theorem add_documents_append (s : VectorStore) (ix : FaissIndex) (chunks : List DocChunk)
    (embs : List (List ℚ)) (metas : List ChunkMeta)
    (hix : s.index = some ix)
    (hne : chunks ≠ [])
    (hex : extractChunks chunks = .ok (embs, metas))
    (hud : uniformDim embs = some ix.dim) :
    add_documents s chunks =
      (save_index { s with index := some ⟨ix.dim, ix.vectors ++ embs⟩,
                           metadata := s.metadata ++ metas }, none) := by
  have hne' : chunks.isEmpty = false := by
    cases chunks with
    | nil => exact absurd rfl hne
    | cons a l => rfl
  simp [add_documents, hne', hex, hud, hix]

/-- Successful `add_documents` on a store with no index yet creates the
index at the batch's width, installs the batch's vectors and metadata
(`_create_new_index` resets the metadata list first), records the
dimension and its configuration file, and persists. -/
theorem add_documents_create (s : VectorStore) (chunks : List DocChunk)
    (embs : List (List ℚ)) (metas : List ChunkMeta) (d : Nat)
    (hix : s.index = none)
    (hne : chunks ≠ [])
    (hex : extractChunks chunks = .ok (embs, metas))
    (hud : uniformDim embs = some d) :
    add_documents s chunks =
      (save_index
        { index := some ⟨d, embs⟩, metadata := metas, dimension := some d,
          disk := { s.disk with config_file := some d } }, none) := by
  have hne' : chunks.isEmpty = false := by
    cases chunks with
    | nil => exact absurd rfl hne
    | cons a l => rfl
  simp [add_documents, hne', hex, hud, hix, createNewIndex]

theorem save_index_index (s : VectorStore) : (save_index s).index = s.index := by
  unfold save_index
  cases h : s.index <;> simp [h]

theorem save_index_metadata (s : VectorStore) : (save_index s).metadata = s.metadata := by
  unfold save_index
  cases h : s.index <;> simp [h]

/-- `search` depends only on the in-memory index and metadata. -/
theorem search_eq_of_fields {s₁ s₂ : VectorStore} (h1 : s₁.index = s₂.index)
    (h2 : s₁.metadata = s₂.metadata) (q : List ℚ) (k : Nat) :
    search s₁ q k = search s₂ q k := by
  unfold search
  rw [h1, h2]

/-- `search` on a state whose vectors split as `V1 ++ q :: V2` with the
query nowhere in `V1`, metadata aligned as `M1 ++ cm :: M2`, returns `cm`
first at rank 1 with similarity 1. -/
theorem search_head_of_split (s2 : VectorStore) (dim : Nat) (V1 V2 : List (List ℚ))
    (M1 M2 : List ChunkMeta) (q : List ℚ) (cm : ChunkMeta) (k : Nat)
    (hix : s2.index = some ⟨dim, V1 ++ q :: V2⟩)
    (hmeta : s2.metadata = M1 ++ cm :: M2)
    (hlen1 : M1.length = V1.length)
    (hlen2 : M2.length = V2.length)
    (hqd : q.length = dim)
    (hVlen : ∀ v ∈ V1 ++ q :: V2, v.length = q.length)
    (hV1ne : ∀ v ∈ V1, v ≠ q)
    (hk : 1 ≤ k) :
    ∃ rest, search s2 q k = ⟨cm, 1, 1⟩ :: rest := by
  have hp : (V1 ++ q :: V2)[V1.length]? = some q := by
    rw [List.getElem?_append_right (le_refl _)]
    simp
  have hbef : ∀ j v, j < V1.length → (V1 ++ q :: V2)[j]? = some v → v ≠ q := by
    intro j v hj hjv
    rw [List.getElem?_append_left hj] at hjv
    exact hV1ne v (List.mem_iff_getElem?.mpr ⟨j, hjv⟩)
  have hmlen : s2.metadata.length = (V1 ++ q :: V2).length := by
    rw [hmeta]
    simp only [List.length_append, List.length_cons]
    omega
  obtain ⟨m, rest, hmp, hsr⟩ :=
    search_rank1 s2 ⟨dim, V1 ++ q :: V2⟩ q k V1.length hix hp hbef hVlen hqd hmlen hk
  have hmc : m = cm := by
    rw [hmeta, List.getElem?_append_right (by omega)] at hmp
    have h0 : V1.length - M1.length = 0 := by omega
    rw [h0] at hmp
    simp at hmp
    exact hmp.symm
  exact ⟨rest, by rw [hsr, hmc]⟩

/-! ### C5: add then search the exact vector -/

set_option maxRecDepth 8000 in
unseal Rat.add Rat.mul Rat.inv Rat.sub in
/-- C5.  Refutation of the claim as stated, in both of its failure modes.
First: if the store already holds the vector `[5]` under entry `metaA`
and a chunk with the same embedding `[5]` and entry `metaB` is added,
searching the exact vector `[5]` returns `metaA`'s entry at rank 1 (the
FAISS distance-0 tie is broken by insertion order), not the added chunk's
entry.  Second: from the store the program itself reaches via the C1
deletion defect (vectors `[[0], [1]]` but metadata `[metaB]` only),
adding a chunk with the fresh vector `[2]` and searching it returns `[]`
— the matched label 2 fails the `idx < len(metadata)` guard — not the
chunk's entry at rank 1. -/
theorem c5_rank1_counterexamples :
    ((search (add_documents dupStore [dupChunk]).1 [5] 1).head? = some ⟨metaA, 1, 1⟩
      ∧ metaA ≠ dupChunk.meta)
    ∧ search (add_documents afterDeleteA.1 [(⟨some [2], metaC⟩ : DocChunk)]).1 [2] 1
        = [] := by decide

/-- C5 (amended).  For every store whose metadata sequence is aligned in
count with its stored vectors — the standing invariant, which only the
C1 deletion defect breaks — and, when an index exists, whose stored
vectors have the width of c's vector, none equal to it: calling
`add_documents` with a batch containing c (all embeddings present with
c's width, the embeddings before c distinct from c's) and then `search`
with c's exact vector and any `k ≥ 1` returns c's entry first, at rank 1
with similarity score exactly 1 (distance 0).  The freshly constructed
store (`index = none`) is covered: the first add sizes the index to the
batch's width. -/
theorem c5_add_then_search_rank1 (s : VectorStore) (pre post : List DocChunk)
    (c : DocChunk) (q : List ℚ) (k : Nat)
    (hq : c.embedding = some q)
    (hpre : ∀ ch ∈ pre, ∃ e, ch.embedding = some e ∧ e.length = q.length ∧ e ≠ q)
    (hpost : ∀ ch ∈ post, ∃ e, ch.embedding = some e ∧ e.length = q.length)
    (halign : ∀ ix, s.index = some ix →
        s.metadata.length = ix.vectors.length ∧ q.length = ix.dim
        ∧ (∀ v ∈ ix.vectors, v.length = q.length) ∧ (∀ v ∈ ix.vectors, v ≠ q))
    (hk : 1 ≤ k) :
    ∃ rest, search (add_documents s (pre ++ c :: post)).1 q k =
      ⟨c.meta, 1, 1⟩ :: rest := by
  classical
  set chunks := pre ++ c :: post with hchunks
  set f : DocChunk → List ℚ := fun ch => ch.embedding.getD [] with hf
  have hfc : f c = q := by rw [hf]; simp [hq]
  have hall : ∀ ch ∈ chunks, ch.embedding ≠ none := by
    intro ch hch
    rw [hchunks] at hch
    rcases List.mem_append.mp hch with h | h
    · obtain ⟨e, he, _, _⟩ := hpre ch h
      rw [he]; exact fun h0 => by cases h0
    · rcases List.mem_cons.mp h with rfl | h'
      · rw [hq]; exact fun h0 => by cases h0
      · obtain ⟨e, he, _⟩ := hpost ch h'
        rw [he]; exact fun h0 => by cases h0
  have hflen : ∀ ch ∈ chunks, (f ch).length = q.length := by
    intro ch hch
    rw [hchunks] at hch
    rcases List.mem_append.mp hch with h | h
    · obtain ⟨e, he, hel, _⟩ := hpre ch h
      rw [hf]; simp [he, hel]
    · rcases List.mem_cons.mp h with rfl | h'
      · rw [hfc]
      · obtain ⟨e, he, hel⟩ := hpost ch h'
        rw [hf]; simp [he, hel]
  have hfpre : ∀ ch ∈ pre, f ch ≠ q := by
    intro ch hch
    obtain ⟨e, he, _, hne⟩ := hpre ch hch
    rw [hf]; simpa [he] using hne
  set embs := chunks.map f with hembs
  set metas := chunks.map DocChunk.meta with hmetas
  have hcne : chunks ≠ [] := by
    rw [hchunks]
    intro h0
    cases List.append_eq_nil.mp h0 with
    | intro _ h2 => cases h2
  have hex : extractChunks chunks = .ok (embs, metas) := extractChunks_all_some chunks hall
  have hembs_ne : embs ≠ [] := by
    rw [hembs]
    simpa using hcne
  have hembs_len : ∀ e ∈ embs, e.length = q.length := by
    intro e he
    rw [hembs] at he
    obtain ⟨ch, hch, rfl⟩ := List.mem_map.mp he
    exact hflen ch hch
  have hud : uniformDim embs = some q.length :=
    uniformDim_of_all q.length embs hembs_ne hembs_len
  have hembs_split : embs = pre.map f ++ q :: post.map f := by
    rw [hembs, hchunks]
    simp [hfc]
  have hmetas_split : metas = pre.map DocChunk.meta ++ c.meta :: post.map DocChunk.meta := by
    rw [hmetas, hchunks]
    simp
  cases hix : s.index with
  | none =>
    have hadd := add_documents_create s chunks embs metas q.length hix hcne hex hud
    have hres : (add_documents s chunks).1 = save_index
        { index := some ⟨q.length, embs⟩,
          metadata := metas,
          dimension := some q.length,
          disk := { s.disk with config_file := some q.length } } := by
      rw [hadd]
    have hsearch_eq : search (add_documents s chunks).1 q k =
        search
          { index := some ⟨q.length, embs⟩,
            metadata := metas,
            dimension := some q.length,
            disk := { s.disk with config_file := some q.length } } q k := by
      rw [hres]
      exact search_eq_of_fields (save_index_index _) (save_index_metadata _) q k
    rw [hsearch_eq]
    exact search_head_of_split _ q.length (pre.map f) (post.map f)
      (pre.map DocChunk.meta) (post.map DocChunk.meta) q c.meta k
      (by rw [hembs_split])
      (by rw [hmetas_split])
      (by simp)
      (by simp)
      rfl
      (by rw [← hembs_split]; exact hembs_len)
      (by
        intro v hv
        obtain ⟨ch, hch, rfl⟩ := List.mem_map.mp hv
        exact hfpre ch hch)
      hk
  | some ix =>
    obtain ⟨hm, hqd, hvlen, hvq⟩ := halign ix hix
    have hud' : uniformDim embs = some ix.dim := by
      rw [hud, hqd]
    have hadd := add_documents_append s ix chunks embs metas hix hcne hex hud'
    have hres : (add_documents s chunks).1 = save_index
        { s with
            index := some ⟨ix.dim, ix.vectors ++ embs⟩,
            metadata := s.metadata ++ metas } := by
      rw [hadd]
    have hsearch_eq : search (add_documents s chunks).1 q k =
        search
          { s with
              index := some ⟨ix.dim, ix.vectors ++ embs⟩,
              metadata := s.metadata ++ metas } q k := by
      rw [hres]
      exact search_eq_of_fields (save_index_index _) (save_index_metadata _) q k
    rw [hsearch_eq]
    have hassoc : ix.vectors ++ embs = (ix.vectors ++ pre.map f) ++ q :: post.map f := by
      rw [hembs_split, List.append_assoc]
    have hmassoc : s.metadata ++ metas =
        (s.metadata ++ pre.map DocChunk.meta) ++ c.meta :: post.map DocChunk.meta := by
      rw [hmetas_split, List.append_assoc]
    exact search_head_of_split _ ix.dim (ix.vectors ++ pre.map f) (post.map f)
      (s.metadata ++ pre.map DocChunk.meta) (post.map DocChunk.meta) q c.meta k
      (by rw [show (ix.vectors ++ embs : List (List ℚ)) =
            (ix.vectors ++ pre.map f) ++ q :: post.map f from hassoc])
      (by rw [show (s.metadata ++ metas : List ChunkMeta) =
            (s.metadata ++ pre.map DocChunk.meta) ++ c.meta :: post.map DocChunk.meta
            from hmassoc])
      (by simp [hm])
      (by simp)
      hqd
      (by
        rw [← hassoc]
        intro v hv
        rcases List.mem_append.mp hv with h | h
        · exact hvlen v h
        · exact hembs_len v h)
      (by
        intro v hv
        rcases List.mem_append.mp hv with h | h
        · exact hvq v h
        · obtain ⟨ch, hch, rfl⟩ := List.mem_map.mp h
          exact hfpre ch hch)
      hk

/-- Witness for the amended C5 at the claim's central scenario, the
freshly constructed store: no index yet, batch `[⟨[7], metaB⟩]`, query
`[7]`, `k = 1`. -/
theorem c5_add_then_search_rank1_witness :
    ∃ rest, search (add_documents freshStore [(⟨some [7], metaB⟩ : DocChunk)]).1 [7] 1 =
      ⟨metaB, 1, 1⟩ :: rest :=
  c5_add_then_search_rank1 freshStore [] [] ⟨some [7], metaB⟩ [7] 1
    rfl
    (by intro ch hch; cases hch)
    (by intro ch hch; cases hch)
    (by
      intro ix h
      rw [show freshStore.index = none from rfl] at h
      cases h)
    (by decide)

/-! ### Chunk boundary lemmas (C8) -/

theorem chunkTextAux_succ (t : List Char) (size overlap fuel start cid : Nat) :
    chunkTextAux t size overlap (fuel + 1) start cid =
      if start < t.length then
        if (pyStrip (pySlice t start (snapEnd t size start))).isEmpty then
          chunkTextAux t size overlap fuel (snapEnd t size start - overlap) cid
        else
          ⟨pyStrip (pySlice t start (snapEnd t size start)), cid, start, snapEnd t size start,
              wordCount (pyStrip (pySlice t start (snapEnd t size start)))⟩ ::
            chunkTextAux t size overlap fuel (snapEnd t size start - overlap) (cid + 1)
      else [] := rfl

theorem firstSpace_range'_none (t : List Char) (e : Nat) :
    ∀ (n s : Nat), firstSpace t e (List.range' s n) = none →
      ∀ j, s ≤ j → j < s + n → t.getD (e - j) 'x' ≠ ' '
  | 0, s, _, j, h1, h2 => by omega
  | n + 1, s, h, j, h1, h2 => by
    simp only [show List.range' s (n + 1) = s :: List.range' (s + 1) n from
      List.range'_succ s n 1, firstSpace] at h
    by_cases hc : t.getD (e - s) 'x' = ' '
    · rw [if_pos hc] at h; cases h
    · rw [if_neg hc] at h
      rcases Nat.eq_or_lt_of_le h1 with rfl | hlt
      · exact hc
      · exact firstSpace_range'_none t e n (s + 1) h j hlt (by omega)

theorem firstSpace_range'_some (t : List Char) (e : Nat) :
    ∀ (n s i : Nat), firstSpace t e (List.range' s n) = some i →
      s ≤ i ∧ i < s + n ∧ t.getD (e - i) 'x' = ' ' ∧
        ∀ j, s ≤ j → j < i → t.getD (e - j) 'x' ≠ ' '
  | 0, s, i, h => by simp [List.range', firstSpace] at h
  | n + 1, s, i, h => by
    simp only [show List.range' s (n + 1) = s :: List.range' (s + 1) n from
      List.range'_succ s n 1, firstSpace] at h
    by_cases hc : t.getD (e - s) 'x' = ' '
    · rw [if_pos hc] at h
      injection h with h'
      subst h'
      exact ⟨le_refl s, by omega, hc,
        fun j hj1 hj2 => absurd (Nat.lt_of_le_of_lt hj1 hj2) (Nat.lt_irrefl s)⟩
    · rw [if_neg hc] at h
      obtain ⟨h1, h2, h3, h4⟩ := firstSpace_range'_some t e n (s + 1) i h
      refine ⟨by omega, by omega, h3, ?_⟩
      intro j hj1 hj2
      rcases Nat.eq_or_lt_of_le hj1 with rfl | hlt
      · exact hc
      · exact h4 j hlt hj2

theorem snapEnd_le (t : List Char) (size start : Nat) :
    snapEnd t size start ≤ start + size := by
  unfold snapEnd
  split
  · split <;> omega
  · omega

theorem snapEnd_at_eof (t : List Char) (size start : Nat) (h : t.length ≤ start + size) :
    snapEnd t size start = start + size := by
  unfold snapEnd
  rw [if_neg (by omega)]

/-- Correctness of the boundary snap: inside the text, either no space
occurs in the lookback window and the raw boundary is kept, or the end is
snapped to the last (rightmost) space position of the window. -/
theorem snapEnd_spec (t : List Char) (size start : Nat) (h : start + size < t.length) :
    (snapEnd t size start = start + size
       ∧ ∀ i, i < lookback size → t.getD (start + size - i) 'x' ≠ ' ')
    ∨ (t.getD (snapEnd t size start) 'x' = ' '
       ∧ start + size - snapEnd t size start < lookback size
       ∧ ∀ j, j < start + size - snapEnd t size start →
           t.getD (start + size - j) 'x' ≠ ' ') := by
  cases hfs : firstSpace t (start + size) (List.range (lookback size)) with
  | none =>
    have hval : snapEnd t size start = start + size := by
      unfold snapEnd
      rw [if_pos h, hfs]
    left
    refine ⟨hval, ?_⟩
    intro i hi
    have hnone := firstSpace_range'_none t (start + size) (lookback size) 0
      (by rw [← List.range_eq_range']; exact hfs)
    exact hnone i (Nat.zero_le i) (by omega)
  | some i =>
    have hval : snapEnd t size start = start + size - i := by
      unfold snapEnd
      rw [if_pos h, hfs]
    obtain ⟨-, hiL, hsp, hmin⟩ := firstSpace_range'_some t (start + size) (lookback size) 0 i
      (by rw [← List.range_eq_range']; exact hfs)
    have hlb : lookback size ≤ size :=
      le_trans (Nat.min_le_right _ _) (Nat.div_le_self size 10)
    have hie : i ≤ start + size := by omega
    have hdiff : start + size - (start + size - i) = i := by omega
    right
    rw [hval, hdiff]
    exact ⟨hsp, by omega, fun j hj => hmin j (Nat.zero_le j) hj⟩

theorem chunkTextAux_ids (t : List Char) (size overlap : Nat) :
    ∀ fuel start cid,
      (chunkTextAux t size overlap fuel start cid).map TextChunk.chunk_id =
        List.range' cid (chunkTextAux t size overlap fuel start cid).length
  | 0, _, _ => rfl
  | fuel + 1, start, cid => by
    rw [chunkTextAux_succ]
    by_cases hlt : start < t.length
    · rw [if_pos hlt]
      by_cases hemp : (pyStrip (pySlice t start (snapEnd t size start))).isEmpty
      · rw [if_pos hemp]
        exact chunkTextAux_ids t size overlap fuel _ cid
      · rw [if_neg hemp]
        simp only [List.map_cons, List.length_cons, List.range'_succ]
        exact congrArg (List.cons cid) (chunkTextAux_ids t size overlap fuel _ (cid + 1))
    · rw [if_neg hlt]
      rfl

theorem chunkTextAux_mem (t : List Char) (size overlap : Nat) :
    ∀ fuel start cid c, c ∈ chunkTextAux t size overlap fuel start cid →
      c.end_pos = snapEnd t size c.start_pos
      ∧ c.text = pyStrip (pySlice t c.start_pos c.end_pos)
      ∧ c.text ≠ []
  | 0, _, _, c, h => by cases h
  | fuel + 1, start, cid, c, h => by
    rw [chunkTextAux_succ] at h
    by_cases hlt : start < t.length
    · rw [if_pos hlt] at h
      by_cases hemp : (pyStrip (pySlice t start (snapEnd t size start))).isEmpty
      · rw [if_pos hemp] at h
        exact chunkTextAux_mem t size overlap fuel _ cid c h
      · rw [if_neg hemp] at h
        rcases List.mem_cons.mp h with rfl | h'
        · exact ⟨rfl, rfl, by simpa using hemp⟩
        · exact chunkTextAux_mem t size overlap fuel _ (cid + 1) c h'
    · rw [if_neg hlt] at h
      cases h

/-! ### C8: boundary snapping, trimming and chunk ids -/

/-- C8.  Refutation of the claim as stated: on `nlText` with
`chunk_size = 30` the proposed end 30 falls strictly inside the text and
the lookback window (3 characters) contains a whitespace character (the
newline at position 29), so the claim requires the end to snap to 29 —
the whitespace-snap rule (`snapEndWhitespace`, the specification's
wording) gives 29 — but the emitted chunk keeps the raw boundary 30: the
code tests only the space character `' '`, not whitespace. -/
theorem c8_whitespace_counterexample :
    (chunk_text nlText 30 0 10).head?.map TextChunk.end_pos = some 30
    ∧ pyIsSpace (nlText.getD 29 'x') = true
    ∧ 0 + 30 - 29 < lookback 30
    ∧ 0 + 30 < nlText.length
    ∧ snapEndWhitespace nlText 30 0 = 29
    ∧ (chunk_text nlText 30 0 10).head?.map TextChunk.end_pos ≠ some 29 := by decide

/-- C8 (amended).  With "whitespace character" corrected to "the space
character `' '`" (and stated for configurations whose overlap plus
lookback fits inside the chunk size, so the loop advances and offsets
stay non-negative — cf. C7): whenever the proposed end `start + size`
falls strictly inside the text the chunker keeps it exactly when no space
occurs in the lookback window of `min(100, size/10)` characters, and
otherwise snaps to the last space position of that window; at or beyond
EOF the raw boundary is kept; every produced slice is the trimmed
`text[start:end]` and is non-empty (empty-after-trim slices are dropped
without consuming an id); and the emitted ids are exactly `0, 1, 2, …`. -/
theorem c8_chunk_boundaries_ids (text : List Char) (size overlap fuel : Nat)
    (_hsane : overlap + lookback size ≤ size) :
    ((chunk_text text size overlap fuel).map TextChunk.chunk_id =
      List.range (chunk_text text size overlap fuel).length)
    ∧ ∀ c ∈ chunk_text text size overlap fuel,
        c.text = pyStrip (pySlice text c.start_pos c.end_pos)
        ∧ c.text ≠ []
        ∧ (c.start_pos + size < text.length →
            (c.end_pos = c.start_pos + size
               ∧ ∀ i, i < lookback size → text.getD (c.start_pos + size - i) 'x' ≠ ' ')
            ∨ (text.getD c.end_pos 'x' = ' '
               ∧ c.start_pos + size - c.end_pos < lookback size
               ∧ c.end_pos ≤ c.start_pos + size
               ∧ ∀ j, j < c.start_pos + size - c.end_pos →
                   text.getD (c.start_pos + size - j) 'x' ≠ ' '))
        ∧ (text.length ≤ c.start_pos + size → c.end_pos = c.start_pos + size) := by
  unfold chunk_text
  by_cases hstrip : (pyStrip text).isEmpty
  · rw [if_pos hstrip]
    exact ⟨rfl, fun c h => by cases h⟩
  · rw [if_neg hstrip]
    refine ⟨?_, ?_⟩
    · rw [chunkTextAux_ids, List.range_eq_range']
    · intro c hc
      obtain ⟨hend, htext, hne⟩ := chunkTextAux_mem text size overlap fuel 0 0 c hc
      refine ⟨htext, hne, ?_, ?_⟩
      · intro hin
        rcases snapEnd_spec text size c.start_pos hin with ⟨h1, h2⟩ | ⟨h1, h2, h3⟩
        · exact Or.inl ⟨hend.trans h1, h2⟩
        · rw [← hend] at h1 h2 h3
          exact Or.inr ⟨h1, h2, hend ▸ snapEnd_le text size c.start_pos, h3⟩
      · intro hout
        exact hend.trans (snapEnd_at_eof text size c.start_pos hout)

/-- Witness for the amended C8: text `"hello world to test"`,
`chunk_size = 10`, `chunk_overlap = 0` — the first emitted chunk is
`"hello worl"` with id 0 and raw end 10 (the one-character window holds
no space). -/
theorem c8_chunk_boundaries_ids_witness :
    0 + lookback 10 ≤ 10
    ∧ ((chunk_text "hello world to test".toList 10 0 50).map TextChunk.chunk_id =
        List.range (chunk_text "hello world to test".toList 10 0 50).length)
    ∧ ((⟨"hello worl".toList, 0, 0, 10, 2⟩ : TextChunk).text =
          pyStrip (pySlice "hello world to test".toList
            (⟨"hello worl".toList, 0, 0, 10, 2⟩ : TextChunk).start_pos
            (⟨"hello worl".toList, 0, 0, 10, 2⟩ : TextChunk).end_pos)
        ∧ (⟨"hello worl".toList, 0, 0, 10, 2⟩ : TextChunk).text ≠ []
        ∧ ((⟨"hello worl".toList, 0, 0, 10, 2⟩ : TextChunk).start_pos + 10 <
              "hello world to test".toList.length →
            ((⟨"hello worl".toList, 0, 0, 10, 2⟩ : TextChunk).end_pos =
                (⟨"hello worl".toList, 0, 0, 10, 2⟩ : TextChunk).start_pos + 10
               ∧ ∀ i, i < lookback 10 →
                   "hello world to test".toList.getD
                     ((⟨"hello worl".toList, 0, 0, 10, 2⟩ : TextChunk).start_pos + 10 - i)
                     'x' ≠ ' ')
            ∨ ("hello world to test".toList.getD
                  (⟨"hello worl".toList, 0, 0, 10, 2⟩ : TextChunk).end_pos 'x' = ' '
               ∧ (⟨"hello worl".toList, 0, 0, 10, 2⟩ : TextChunk).start_pos + 10 -
                     (⟨"hello worl".toList, 0, 0, 10, 2⟩ : TextChunk).end_pos < lookback 10
               ∧ (⟨"hello worl".toList, 0, 0, 10, 2⟩ : TextChunk).end_pos ≤
                     (⟨"hello worl".toList, 0, 0, 10, 2⟩ : TextChunk).start_pos + 10
               ∧ ∀ j, j < (⟨"hello worl".toList, 0, 0, 10, 2⟩ : TextChunk).start_pos + 10 -
                     (⟨"hello worl".toList, 0, 0, 10, 2⟩ : TextChunk).end_pos →
                   "hello world to test".toList.getD
                     ((⟨"hello worl".toList, 0, 0, 10, 2⟩ : TextChunk).start_pos + 10 - j)
                     'x' ≠ ' '))
        ∧ ("hello world to test".toList.length ≤
              (⟨"hello worl".toList, 0, 0, 10, 2⟩ : TextChunk).start_pos + 10 →
            (⟨"hello worl".toList, 0, 0, 10, 2⟩ : TextChunk).end_pos =
              (⟨"hello worl".toList, 0, 0, 10, 2⟩ : TextChunk).start_pos + 10)) :=
  ⟨by decide,
    (c8_chunk_boundaries_ids "hello world to test".toList 10 0 50 (by decide)).1,
    (c8_chunk_boundaries_ids "hello world to test".toList 10 0 50 (by decide)).2
      ⟨"hello worl".toList, 0, 0, 10, 2⟩ (by decide)⟩

/-! ### C9: persist-then-reload round trip -/

/-- The standing save invariant of reachable states: either the store is
still the pristine empty store with no files, or its three files hold
exactly the in-memory index, metadata and dimension. -/
theorem reachable_saved (s : VectorStore) (h : Reachable s) :
    s = newVectorStore emptyDisk none
    ∨ ∃ ix, s.index = some ix ∧ s.dimension = some ix.dim
        ∧ s.disk.index_file = some ix ∧ s.disk.metadata_file = some s.metadata
        ∧ s.disk.config_file = some ix.dim := by
  induction h with
  | base => exact Or.inl rfl
  | add s chunks hr hok ih =>
    by_cases hemp : chunks.isEmpty
    · have heq : add_documents s chunks = (s, none) := by
        simp [add_documents, hemp]
      rw [heq]
      exact ih
    · match hex : extractChunks chunks with
      | .error msg =>
        have heq : add_documents s chunks = (s, some msg) := by
          simp [add_documents, hemp, hex]
        rw [heq] at hok
        cases hok
      | .ok (embs, metas) =>
        match hud : uniformDim embs with
        | none =>
          have heq : add_documents s chunks =
              (s, some "setting an array element with a sequence") := by
            simp [add_documents, hemp, hex, hud]
          rw [heq] at hok
          cases hok
        | some d =>
          match hix : s.index with
          | none =>
            have heq : add_documents s chunks =
                (save_index
                  { index := some ⟨d, embs⟩, metadata := metas, dimension := some d,
                    disk := { s.disk with config_file := some d } }, none) := by
              simp [add_documents, hemp, hex, hud, hix, createNewIndex]
            rw [heq]
            right
            exact ⟨⟨d, embs⟩, by simp [save_index]⟩
          | some ix =>
            by_cases hd : d = ix.dim
            · have heq : add_documents s chunks =
                  (save_index
                    { s with
                        index := some ⟨ix.dim, ix.vectors ++ embs⟩,
                        metadata := s.metadata ++ metas },
                    none) := by
                simp [add_documents, hemp, hex, hud, hix, hd]
              rw [heq]
              right
              rcases ih with hbase | ⟨ix', hix', hdim, -, -, hcf⟩
              · rw [hbase] at hix
                simp [newVectorStore, emptyDisk] at hix
              · have hixeq : ix' = ix := by
                  rw [hix'] at hix
                  injection hix
                subst hixeq
                exact ⟨⟨ix'.dim, ix'.vectors ++ embs⟩, by simp [save_index, hdim, hcf]⟩
            · have heq : add_documents s chunks = (s, some "dimension mismatch") := by
                simp [add_documents, hemp, hex, hud, hix, hd]
              rw [heq] at hok
              cases hok

/-- C9.  Constructing a new `VectorStore` over the files persisted by any
sequence of successful `add_documents` calls yields a store with the same
`get_stats` output and the same `search` results for every query and
`k`. -/
theorem c9_persist_reload_roundtrip (s : VectorStore) (h : Reachable s) :
    get_stats (newVectorStore s.disk none) = get_stats s
    ∧ ∀ q k, search (newVectorStore s.disk none) q k = search s q k := by
  rcases reachable_saved s h with hbase | ⟨ix, hix, hdim, hif, hmf, hcf⟩
  · rw [hbase]
    exact ⟨rfl, fun q k => rfl⟩
  · have hload : newVectorStore s.disk none =
        { index := some ix, metadata := s.metadata, dimension := some ix.dim,
          disk := s.disk } := by
      unfold newVectorStore
      rw [hif, hmf, hcf]
    rw [hload]
    constructor
    · unfold get_stats
      simp [hix, hdim]
    · intro q k
      exact @search_eq_of_fields
        { index := some ix, metadata := s.metadata, dimension := some ix.dim, disk := s.disk }
        s (by rw [hix]) rfl q k

/-- Witness for C9: the store reached by one `add_documents` call with
two chunks, reloaded from its own files. -/
theorem c9_persist_reload_roundtrip_witness :
    get_stats (newVectorStore storeAB.disk none) = get_stats storeAB
    ∧ search (newVectorStore storeAB.disk none) [0] 1 = search storeAB [0] 1 := by
  have hr : Reachable storeAB :=
    Reachable.add freshStore twoFileBatch Reachable.base (by decide)
  exact ⟨(c9_persist_reload_roundtrip storeAB hr).1,
    (c9_persist_reload_roundtrip storeAB hr).2 [0] 1⟩

end Orbit
